import Mathlib

set_option maxRecDepth 20000

/-!
Verification of the structural claims about `src/verilog_docgen.py`, the
Verilog documentation generator.  The Python source is shallowly embedded:
each parsing function of the source is translated into an executable Lean
function on `List Char` / `String`, replicating the semantics of the
regular expressions used by the source (leftmost scanning, lazy/greedy
quantifier backtracking, word boundaries) for the concrete patterns that
appear in the code.  Character classes `\s` and `\w` are modelled by their
ASCII parts, which is what every input under consideration uses.
-/

namespace VerilogDocgen

/-! ## Character classes (ASCII parts of Python's `\s` and `\w`) -/

/-- ASCII part of Python's whitespace class `\s` (also the class used by
`str.strip()` / `str.split()` on ASCII text). -/
def pyIsSpace (c : Char) : Bool :=
  c = ' ' || c = '\t' || c = '\n' || c = '\r' || c = '\x0b' || c = '\x0c'

/-- ASCII part of Python's word class `\w`: letters, digits, underscore. -/
def isWord (c : Char) : Bool :=
  c.isAlphanum || c = '_'

/-! ## Small list/string utilities mirroring Python string methods -/

/-- Python `str.strip()` (no argument): drop whitespace on both ends. -/
def pyStrip (l : List Char) : List Char :=
  ((l.dropWhile pyIsSpace).reverse.dropWhile pyIsSpace).reverse

/-- Drop a maximal run of whitespace, i.e. a greedy `\s*`. -/
def dropWs (l : List Char) : List Char :=
  l.dropWhile pyIsSpace

/-- Python `str.split(sep)` for a single-character separator: splits at every
occurrence, keeping empty fragments (`"".split(",") == [""]`). -/
def splitC (sep : Char) : List Char → List (List Char)
  | [] => [[]]
  | c :: rest =>
    if c = sep then [] :: splitC sep rest
    else
      match splitC sep rest with
      | [] => [[c]]
      | l :: ls => (c :: l) :: ls

/-- Helper for `pyWords`: `acc` is the current word, reversed. -/
def pyWordsAux : List Char → List Char → List (List Char)
  | acc, [] => if acc = [] then [] else [acc.reverse]
  | acc, c :: rest =>
    if pyIsSpace c then
      if acc = [] then pyWordsAux [] rest else acc.reverse :: pyWordsAux [] rest
    else pyWordsAux (c :: acc) rest

/-- Python `str.split()` (no argument): words separated by whitespace runs,
no empty fragments. -/
def pyWords (l : List Char) : List (List Char) :=
  pyWordsAux [] l

/-- Python `str.strip(")")`: drop `)` characters from both ends. -/
def stripCloseParens (l : List Char) : List Char :=
  ((l.dropWhile (fun c => c = ')')).reverse.dropWhile (fun c => c = ')')).reverse

/-! ## Data model (the dataclasses of the source) -/

/-- `Port` dataclass: one module interface signal. -/
structure Port where
  name : String
  direction : Option String := none
  data_type : Option String := none
  width : Option String := none
deriving DecidableEq, Repr

/-- `Instance` dataclass: one sub-module instantiation. -/
structure Instance where
  module_name : String
  instance_name : String
  connections : List (String × String) := []
deriving DecidableEq, Repr

/-- `Module` dataclass: one top-level structural unit. -/
structure Module where
  name : String
  parameters : List String := []
  ports : List Port := []
  instances : List Instance := []
deriving DecidableEq, Repr

/-- The `KEYWORDS` denylist of the source (a Python set used only for
membership tests; modelled as a list). -/
def KEYWORDS : List String :=
  ["if", "for", "case", "always", "assign", "generate", "endmodule"]

/-! ## Comment stripper

`strip_comments` performs two substitutions:
`re.sub(r"//.*?$", "", text, flags=re.MULTILINE)` removes each `//` comment
up to (not including) the end of its line, and
`re.sub(r"/\*.*?\*/", "", text, flags=re.DOTALL)` removes each block
comment from `/*` to the first following `*/` (newlines included); a `/*`
with no following `*/` matches nothing and is left verbatim.  Both passes
are modelled as single left-to-right character scans, which is exactly what
repeated leftmost non-overlapping substitution of these patterns does. -/

/-- First pass of `strip_comments`: state machine for
`re.sub(r"//.*?$", "", text, flags=re.MULTILINE)`.
State `false`: outside a line comment, copying; on `//` switch to state
`true`, which drops characters up to (not including) the next newline. -/
def slc : Bool → List Char → List Char
  | false, '/' :: '/' :: rest => slc true rest
  | false, c :: rest => c :: slc false rest
  | true, '\n' :: rest => '\n' :: slc false rest
  | true, _ :: rest => slc true rest
  | _, [] => []

/-- Second pass of `strip_comments`: state machine for
`re.sub(r"/\*.*?\*/", "", text, flags=re.DOTALL)`.
State `none`: outside a block comment, copying; on `/*` switch to
`some acc` where `acc` records the consumed characters (reversed) so that
an unterminated comment — which the regex does not match — is emitted
verbatim at the end of input. -/
def sb : Option (List Char) → List Char → List Char
  | none, '/' :: '*' :: rest => sb (some ['*', '/']) rest
  | none, c :: rest => c :: sb none rest
  | some _, '*' :: '/' :: rest => sb none rest
  | some acc, c :: rest => sb (some (c :: acc)) rest
  | none, [] => []
  | some acc, [] => acc.reverse

/-- `strip_comments` on character lists: line-comment pass, then
block-comment pass (the order used by the source). -/
def stripAll (l : List Char) : List Char :=
  sb none (slc false l)

/-- `strip_comments(text)` of the source. -/
def strip_comments (text : String) : String :=
  String.mk (stripAll text.data)

/-! ## Header parser: `parse_parameters` and `parse_ports_from_header` -/

/-- Python `part.replace("parameter", "")`: remove every (non-overlapping,
left-to-right) occurrence of the substring `parameter`. -/
def removeParameter : List Char → List Char
  | 'p' :: 'a' :: 'r' :: 'a' :: 'm' :: 'e' :: 't' :: 'e' :: 'r' :: rest =>
    removeParameter rest
  | c :: rest => c :: removeParameter rest
  | [] => []

/-- `parse_parameters(raw)` of the source: `None`/empty gives `[]`;
otherwise split on every comma, strip, drop fragments that are blank
before keyword removal, then delete every occurrence of the substring
`parameter` and strip again. -/
def parse_parameters : Option String → List String
  | none => []
  | some raw =>
    if raw.data = [] then []
    else
      let parts := ((splitC ',' raw.data).map pyStrip).filter (fun p => p ≠ [])
      parts.map (fun part => String.mk (pyStrip (removeParameter part)))

/-- `parse_ports_from_header(raw)` of the source: split on commas, strip,
drop blank fragments; for each fragment replace newlines by spaces, split
into whitespace-separated tokens and keep the last token with any `)`
characters stripped from both ends. -/
def parse_ports_from_header (raw : String) : List String :=
  let parts := ((splitC ',' raw.data).map pyStrip).filter (fun p => p ≠ [])
  parts.filterMap (fun part =>
    let tokens := pyWords (part.map (fun c => if c = '\n' then ' ' else c))
    match tokens.reverse with
    | [] => none
    | last :: _ => some (String.mk (stripCloseParens last)))

/-! ## Body parser: port declarations

`parse_port_declarations` iterates the matches of
`\b(input|output|inout)\b\s*(reg|wire|logic)?\s*(\[[^\]]+\])?\s*([^;]+);`
over the body.  The optional groups backtrack: if the pattern cannot be
completed with the storage-type (resp. bracket) group matched, the match is
retried without it.  `[^;]+` is greedy and must be non-empty; the `\s*`
preceding it yields back one whitespace character when the remaining text
before `;` would otherwise be empty. -/

/-- One raw match of the port-declaration pattern: the four groups
(direction, optional storage type, optional bracketed width, raw name
list). -/
structure DeclMatch where
  dir : List Char
  ty : Option (List Char)
  width : Option (List Char)
  namesRaw : List Char
deriving DecidableEq, Repr

/-- Match `(input|output|inout)` at the head, honouring the trailing `\b`
(the character after the literal must not be a word character).  The
leading `\b` is checked by the scanner.  Returns the direction literal and
the rest. -/
def matchDirection (l : List Char) : Option (List Char × List Char) :=
  let tryLit : List Char → Option (List Char × List Char) := fun lit =>
    if List.isPrefixOf lit l then
      let rest := l.drop lit.length
      match rest with
      | [] => some (lit, [])
      | c :: _ => if isWord c then none else some (lit, rest)
    else none
  match tryLit ("input").data with
  | some r => some r
  | none =>
    match tryLit ("output").data with
    | some r => some r
    | none => tryLit ("inout").data

/-- Match the optional `(reg|wire|logic)` group (no trailing `\b` in the
pattern, so a prefix of a longer word also matches). -/
def matchTy (l : List Char) : Option (List Char × List Char) :=
  if List.isPrefixOf ("reg").data l then some (("reg").data, l.drop 3)
  else if List.isPrefixOf ("wire").data l then some (("wire").data, l.drop 4)
  else if List.isPrefixOf ("logic").data l then some (("logic").data, l.drop 5)
  else none

/-- Match the optional `(\[[^\]]+\])` group: `[`, then at least one
non-`]` character, then `]`.  Returns the bracketed text (brackets
included, as captured by the group) and the rest. -/
def matchBracket (l : List Char) : Option (List Char × List Char) :=
  match l with
  | '[' :: rb =>
    let inner := rb.takeWhile (fun c => c ≠ ']')
    match rb.dropWhile (fun c => c ≠ ']') with
    | ']' :: r4 => if inner = [] then none else some ('[' :: (inner ++ [']']), r4)
    | _ => none
  | _ => none

/-- Match the trailing `\s*([^;]+);` of the port-declaration pattern.
`content` is the text up to the first `;`; the greedy `\s*` eats its
whitespace prefix but must leave at least one character for `[^;]+`
(giving back its last whitespace character when `content` is all
whitespace).  Returns the captured name-list text and the rest after
`;`. -/
def tailNames (rw : List Char) : Option (List Char × List Char) :=
  let content := rw.takeWhile (fun c => c ≠ ';')
  match rw.dropWhile (fun c => c ≠ ';') with
  | ';' :: r5 =>
    match content.dropWhile pyIsSpace with
    | [] =>
      match content.reverse with
      | [] => none
      | lastC :: _ => some ([lastC], r5)
    | d :: ds => some (d :: ds, r5)
  | _ => none

/-- The part of the port-declaration pattern after the optional
storage-type group: `\s*(\[[^\]]+\])?\s*([^;]+);`, with the bracket group
dropped on backtracking.  When the bracket group matches, the `\s*` before
it is the maximal whitespace run (`[` is not whitespace, so no shorter run
can reach it); when the bracket group is skipped, the surrounding `\s*`s
collapse into the single `\s*` modelled inside `tailNames`, which is
applied to the unstripped text so that the give-back of a whitespace
character to `[^;]+` is kept. -/
def declTail2 (tyOpt : Option (List Char)) (r : List Char) :
    Option (Option (List Char) × Option (List Char) × List Char × List Char) :=
  let r3 := dropWs r
  let withBr :=
    match matchBracket r3 with
    | some (w, r4) =>
      match tailNames r4 with
      | some (g4, r5) => some (tyOpt, some w, g4, r5)
      | none => none
    | none => none
  match withBr with
  | some res => some res
  | none =>
    match tailNames r with
    | some (g4, r5) => some (tyOpt, none, g4, r5)
    | none => none

/-- The part of the port-declaration pattern after the direction:
`\s*(reg|wire|logic)?\s*(\[[^\]]+\])?\s*([^;]+);`, with the storage-type
group dropped on backtracking.  When the storage-type group matches, the
`\s*` before it is the maximal whitespace run (the type literals start
with non-whitespace); when it is skipped, that `\s*` collapses into the
following ones, so the rest of the pattern is tried on the unstripped
text. -/
def declTail (r1 : List Char) :
    Option (Option (List Char) × Option (List Char) × List Char × List Char) :=
  let r2 := dropWs r1
  let withTy :=
    match matchTy r2 with
    | some (ty, rA) => declTail2 (some ty) rA
    | none => none
  match withTy with
  | some res => some res
  | none => declTail2 none r1

/-- `finditer` scan for the port-declaration pattern.  `prevWord` tracks
whether the previous character is a word character (for the leading `\b`);
matches are non-overlapping, so scanning resumes after the `;` of a match
(whose `;` makes the next `prevWord` false).  The fuel argument exceeds
the list length at the top-level call; every step consumes at least one
character. -/
def scanPortDeclsF : Nat → Bool → List Char → List DeclMatch
  | 0, _, _ => []
  | _ + 1, _, [] => []
  | fuel + 1, prevWord, c :: rest =>
    if prevWord then scanPortDeclsF fuel (isWord c) rest
    else
      match matchDirection (c :: rest) with
      | some (dir, r1) =>
        match declTail r1 with
        | some (ty, w, g4, r5) => ⟨dir, ty, w, g4⟩ :: scanPortDeclsF fuel false r5
        | none => scanPortDeclsF fuel (isWord c) rest
      | none => scanPortDeclsF fuel (isWord c) rest

/-- The port-declaration matches of a body text, in order. -/
def scanPortDeclsL (l : List Char) : List DeclMatch :=
  scanPortDeclsF (l.length + 1) false l

/-- The loop body of `parse_port_declarations`: split the name-list text on
commas; for each fragment strip it, skip it if blank, cut it at the first
`=` (stripping again) and build one `Port` sharing the match's direction,
type and width. -/
def portsOfDecl (d : DeclMatch) : List Port :=
  (splitC ',' d.namesRaw).filterMap (fun name =>
    let clean := pyStrip name
    if clean = [] then none
    else
      let clean2 :=
        if clean.contains '=' then pyStrip (clean.takeWhile (fun c => c ≠ '='))
        else clean
      some { name := String.mk clean2
             direction := some (String.mk d.dir)
             data_type := Option.map String.mk d.ty
             width := Option.map String.mk d.width })

/-- `parse_port_declarations(body)` of the source. -/
def parse_port_declarations (body : String) : List Port :=
  (scanPortDeclsL body.data).flatMap portsOfDecl

/-! ## Body parser: instantiations

`parse_instances` iterates the matches of
`\b(\w+)\s+(\w+)\s*\((.*?)\)\s*;` (DOTALL) over the body.  The lazy
`(.*?)` stops at the earliest `)` that lets `\s*;` complete, extending to
later `)` candidates on failure. -/

/-- Backtracking search for the lazy `(.*?)\)` followed by a continuation:
try each `)` of `l` from left to right; `k` receives the text captured
before that `)` and the rest after it; the first `)` for which `k`
succeeds wins. -/
def tryCloses (k : List Char → List Char → Option α) : List Char → List Char → Option α
  | _, [] => none
  | acc, c :: rest =>
    if c = ')' then
      match k acc.reverse rest with
      | some res => some res
      | none => tryCloses k (')' :: acc) rest
    else tryCloses k (c :: acc) rest

/-- One raw match of the instantiation pattern: groups 1-3. -/
structure InstMatch where
  moduleName : List Char
  instanceName : List Char
  rawConns : List Char
deriving DecidableEq, Repr

/-- Try the instantiation pattern at the head of `l` (the leading `\b` is
checked by the scanner).  `\w+`, `\s+` and `\w+` are maximal runs (no
shorter run can be followed by the next required token), then `\s*\(`,
then the lazy connection capture up to a `)` followed by `\s*;`. -/
def tryInstanceAt (l : List Char) : Option (InstMatch × List Char) :=
  let w1 := l.takeWhile isWord
  let r1 := l.dropWhile isWord
  if w1 = [] then none
  else
    let ws := r1.takeWhile pyIsSpace
    let r2 := r1.dropWhile pyIsSpace
    if ws = [] then none
    else
      let w2 := r2.takeWhile isWord
      let r3 := r2.dropWhile isWord
      if w2 = [] then none
      else
        match dropWs r3 with
        | '(' :: r5 =>
          tryCloses (fun conns rest =>
            match dropWs rest with
            | ';' :: r6 => some (InstMatch.mk w1 w2 conns, r6)
            | _ => none) [] r5
        | _ => none

/-- `finditer` scan for the instantiation pattern; same conventions as
`scanPortDeclsF` (a match ends after `;`, so the next `prevWord` is
false). -/
def scanInstancesF : Nat → Bool → List Char → List InstMatch
  | 0, _, _ => []
  | _ + 1, _, [] => []
  | fuel + 1, prevWord, c :: rest =>
    if prevWord then scanInstancesF fuel (isWord c) rest
    else
      match tryInstanceAt (c :: rest) with
      | some (m, r6) => m :: scanInstancesF fuel false r6
      | none => scanInstancesF fuel (isWord c) rest

/-- The instantiation matches of a body text, in order. -/
def scanInstancesL (l : List Char) : List InstMatch :=
  scanInstancesF (l.length + 1) false l

/-- Try the connection pattern `\.(\w+)\s*\(\s*([^)]+)\s*\)` just after a
`.`: a non-empty word run, `\s*`, `(`, then at least one character before
the first `)`.  The captured signal text is returned after `str.strip()`,
as the source immediately strips it. -/
def connAt (rest : List Char) : Option (List Char × List Char × List Char) :=
  let w := rest.takeWhile isWord
  let r1 := rest.dropWhile isWord
  if w = [] then none
  else
    match dropWs r1 with
    | '(' :: r3 =>
      let content := r3.takeWhile (fun c => c ≠ ')')
      match r3.dropWhile (fun c => c ≠ ')') with
      | ')' :: r4 => if content = [] then none else some (w, pyStrip content, r4)
      | _ => none
    | _ => none

/-- `re.findall(r"\.(\w+)\s*\(\s*([^)]+)\s*\)", raw_connections)` together
with the `strip()` the source applies to each captured signal: scan for
`.`, emit a (port, signal) pair per match, continue after the match (or
one character further on failure). -/
def findConnectionsF : Nat → List Char → List (List Char × List Char)
  | 0, _ => []
  | _ + 1, [] => []
  | fuel + 1, c :: rest =>
    if c = '.' then
      match connAt rest with
      | some (name, sig, r4) => (name, sig) :: findConnectionsF fuel r4
      | none => findConnectionsF fuel rest
    else findConnectionsF fuel rest

/-- The named connections of a raw connection-list text, in order. -/
def findConnectionsL (l : List Char) : List (List Char × List Char) :=
  findConnectionsF (l.length + 1) l

/-- `parse_instances(body)` of the source: scan for instantiation matches
(non-overlapping, so a denylisted match still consumes its text), skip a
match whose module-type token is in `KEYWORDS`, and build an `Instance`
from each remaining match. -/
def parse_instances (body : String) : List Instance :=
  (scanInstancesL body.data).filterMap (fun m =>
    if KEYWORDS.contains (String.mk m.moduleName) then none
    else
      some { module_name := String.mk m.moduleName
             instance_name := String.mk m.instanceName
             connections :=
               (findConnectionsL m.rawConns).map (fun c => (String.mk c.1, String.mk c.2)) })

/-! ## Module extractor and assembler

`parse_modules` strips comments and iterates the matches of
`\bmodule\s+(\w+)\s*(#\s*\((?P<params>.*?)\))?\s*\((?P<ports>.*?)\)\s*;(?P<body>.*?)\bendmodule`
(DOTALL).  The optional `#(...)` group is tried first (its lazy params
capture extending over later `)` candidates on failure) and dropped on
failure — in which case the following `\s*\(` must match where the `#`
stood, so the position fails; the ports capture is lazy in the same way;
the body capture extends to the first `\bendmodule`. -/

/-- One raw match of the module pattern: name, optional params text,
header ports text, body text. -/
structure RawMatch where
  name : List Char
  params : Option (List Char)
  portsRaw : List Char
  body : List Char
deriving DecidableEq, Repr

/-- The lazy `(?P<body>.*?)\bendmodule`: find the first position with a
word boundary followed by the literal `endmodule` (the pattern ends there,
so no backtracking past it); `prev` is the character before `l`.  Returns
the body text and the rest after the literal. -/
def findEnd : Char → List Char → Option (List Char × List Char)
  | prev, l =>
    if !isWord prev && List.isPrefixOf ("endmodule").data l then
      some ([], l.drop 9)
    else
      match l with
      | [] => none
      | c :: rest => (findEnd c rest).map (fun br => (c :: br.1, br.2))

/-- The part of the module pattern from the ports `(` onward:
`(?P<ports>.*?)\)\s*;(?P<body>.*?)\bendmodule` (the `;` precedes the body,
so the boundary check at the body start sees `;`). -/
def headerPortsAndBody (name : List Char) (params : Option (List Char))
    (r6 : List Char) : Option (RawMatch × List Char) :=
  tryCloses (fun portsTxt rest =>
    match dropWs rest with
    | ';' :: r7 => (findEnd ';' r7).map (fun br => (⟨name, params, portsTxt, br.1⟩, br.2))
    | _ => none) [] r6

/-- The `\s*\(` before the ports capture (used after the optional params
group). -/
def afterParams (name : List Char) (params : Option (List Char))
    (rest : List Char) : Option (RawMatch × List Char) :=
  match dropWs rest with
  | '(' :: r6 => headerPortsAndBody name params r6
  | _ => none

/-- Try the module pattern at the head of `l` (the leading `\b` is checked
by the scanner): literal `module`, `\s+`, maximal `\w+` name, `\s*`, then
the optional `#\s*\((?P<params>.*?)\)` group with its backtracking, then
`\s*\(` and the rest.  When the `#` group fails (or is absent), the next
required `(` is matched at the same ws-skipped position. -/
def tryModuleAt (l : List Char) : Option (RawMatch × List Char) :=
  if List.isPrefixOf ("module").data l then
    let r0 := l.drop 6
    match r0 with
    | [] => none
    | c0 :: _ =>
      if !pyIsSpace c0 then none
      else
        let r1 := dropWs r0
        let name := r1.takeWhile isWord
        let r2 := r1.dropWhile isWord
        if name = [] then none
        else
          let r3 := dropWs r2
          let withHash :=
            match r3 with
            | '#' :: r4 =>
              match dropWs r4 with
              | '(' :: r6 =>
                tryCloses (fun paramsTxt rest => afterParams name (some paramsTxt) rest) [] r6
              | _ => none
            | _ => none
          match withHash with
          | some res => some res
          | none =>
            match r3 with
            | '(' :: r6 => headerPortsAndBody name none r6
            | _ => none
  else none

/-- `finditer` scan for the module pattern; a match ends after the literal
`endmodule`, whose last character is a word character, so the next
`prevWord` is true. -/
def scanModulesF : Nat → Bool → List Char → List RawMatch
  | 0, _, _ => []
  | _ + 1, _, [] => []
  | fuel + 1, prevWord, c :: rest =>
    if prevWord then scanModulesF fuel (isWord c) rest
    else
      match tryModuleAt (c :: rest) with
      | some (m, rem) => m :: scanModulesF fuel true rem
      | none => scanModulesF fuel (isWord c) rest

/-- The module-boundary matches of a (comment-stripped) text, in order. -/
def scanModulesL (l : List Char) : List RawMatch :=
  scanModulesF (l.length + 1) false l

/-- The per-match assembly step of `parse_modules`: parameters from the
header parse, ports from the body parse with fallback to header-inferred
names (direction/type/width absent), instances from the body parse. -/
def assembleModule (m : RawMatch) : Module :=
  let headerPorts := parse_ports_from_header (String.mk m.portsRaw)
  let declPorts := parse_port_declarations (String.mk m.body)
  { name := String.mk m.name
    parameters := parse_parameters (Option.map String.mk m.params)
    ports := if declPorts = [] then headerPorts.map (fun p => { name := p }) else declPorts
    instances := parse_instances (String.mk m.body) }

/-- `parse_modules(text)` of the source. -/
def parse_modules (text : String) : List Module :=
  (scanModulesL (stripAll text.data)).map assembleModule

/-! ## Documentation renderer -/

/-- Python's `value or "-"` on an optional string field: `None` and the
empty string are falsy. -/
def orDash : Option String → String
  | none => "-"
  | some s => if s = "" then "-" else s

/-- `format_port_table(ports)` of the source. -/
def format_port_table (ports : List Port) : String :=
  let rows :=
    ["| Name | Direction | Type | Width |", "| --- | --- | --- | --- |"] ++
    ports.map (fun port =>
      "| " ++ port.name ++ " | " ++ orDash port.direction ++ " | " ++
        orDash port.data_type ++ " | " ++ orDash port.width ++ " |")
  String.intercalate "\n" rows

/-- `make_mermaid(modules)` of the source (`enumerate(..., start=1)` is the
position in the instance list, 1-based). -/
def make_mermaid (modules : List Module) : String :=
  let lines :=
    ["flowchart LR"] ++
    modules.flatMap (fun m =>
      let module_id := m.name ++ "_self"
      ["  subgraph " ++ m.name,
       "    " ++ module_id ++ "[\"" ++ m.name ++ "\"]"] ++
      m.instances.enum.flatMap (fun p =>
        let instance_id := m.name ++ "_inst_" ++ toString (p.1 + 1)
        let label := p.2.module_name ++ " " ++ p.2.instance_name
        ["    " ++ instance_id ++ "[\"" ++ label ++ "\"]",
         "    " ++ module_id ++ " --> " ++ instance_id]) ++
      ["  end"])
  String.intercalate "\n" lines

/-- `build_documentation(modules)` of the source. -/
def build_documentation (modules : List Module) : String :=
  let lines :=
    ["# Verilog Design Documentation", "", "## Module Diagram", "",
     "```mermaid", make_mermaid modules, "```", "", "## Modules"] ++
    modules.flatMap (fun m =>
      ["", "### " ++ m.name] ++
      (if m.parameters.isEmpty then []
       else ["", "**Parameters**"] ++ m.parameters.map (fun param => "- " ++ param)) ++
      ["", "**Ports**", format_port_table m.ports, "", "**Instances**"] ++
      (if m.instances.isEmpty then ["- None"]
       else m.instances.flatMap (fun inst =>
         ["- `" ++ inst.module_name ++ "` `" ++ inst.instance_name ++ "`"] ++
         (if inst.connections.isEmpty then []
          else inst.connections.map (fun c => "  - ." ++ c.1 ++ "(" ++ c.2 ++ ")")))))
  String.intercalate "\n" lines

/-! ## The boundary operation and the runner (`main` without file I/O)

`main` reads the input, calls `parse_modules`, raises
`ValueError("No modules found in input.")` when the result is empty —
before any output is created — and otherwise writes
`build_documentation(modules)`.  The spec's error taxonomy names this
failure `ParseError` / `NoModulesFound`. -/

/-- The single error of the run: zero module boundaries found. -/
inductive ParseError
  | noModulesFound
deriving DecidableEq, Repr

/-- The boundary operation `parseModules` of the spec: the parse together
with the zero-modules check of `main`. -/
def parseModulesOp (text : String) : Except ParseError (List Module) :=
  let modules := parse_modules text
  if modules.isEmpty then Except.error ParseError.noModulesFound
  else Except.ok modules

/-- The whole run of `main` on an input text, producing the document text
(never produced when the check fails). -/
def run_docgen (text : String) : Except ParseError String :=
  Except.map build_documentation (parseModulesOp text)

/-! ## Spec-side definitions for the parameter-parsing claim

The spec describes parameter parsing as: "split raw parameter text on
commas at the top syntactic level, trim whitespace, strip the leading
parameter keyword from each fragment, discard empty fragments."  The
following definitions render those words, to be compared with
`parse_parameters` (which is translated from the source). -/

/-- Split on commas at the top syntactic level: a comma inside
parentheses does not split.  `depth` is the current nesting depth, `cur`
the current fragment reversed. -/
def splitTopAux : Nat → List Char → List Char → List (List Char)
  | _, cur, [] => [cur.reverse]
  | depth, cur, c :: rest =>
    if c = ',' ∧ depth = 0 then cur.reverse :: splitTopAux 0 [] rest
    else
      splitTopAux (if c = '(' then depth + 1 else if c = ')' then depth - 1 else depth)
        (c :: cur) rest

/-- The parameter-list parse exactly as the spec words it: top-level comma
split, trim, strip the leading `parameter` keyword, discard fragments that
are empty after stripping. -/
def specParseParameters (raw : String) : List String :=
  ((splitTopAux 0 [] raw.data).map pyStrip).filterMap (fun part =>
    let stripped :=
      if List.isPrefixOf ("parameter").data part then pyStrip (part.drop 9) else part
    if stripped = [] then none else some (String.mk stripped))

/-- The amended description of parameter parsing, matching the source:
split on every comma (nesting ignored), trim, drop fragments blank before
keyword removal, delete every occurrence of the substring `parameter`,
trim again (a fragment that becomes empty only after keyword removal is
kept as an empty string). -/
def amendedParseParameters (raw : String) : List String :=
  (splitC ',' raw.data).filterMap (fun part =>
    let t := pyStrip part
    if t = [] then none else some (String.mk (pyStrip (removeParameter t))))

/-! ## Predicates for the comment-stripper proofs -/

/-- `hasPair p q l` holds when the two-character sequence `p q` occurs in
`l` (i.e. `l` contains that substring). -/
def hasPair (p q : Char) : List Char → Bool
  | a :: b :: r => (a = p && b = q) || hasPair p q (b :: r)
  | _ => false

/-- After the first `*/` of `l` (used to describe how `sb` skips a
terminated block comment). -/
def afterClose : List Char → List Char
  | '*' :: '/' :: r => r
  | _ :: r => afterClose r
  | [] => []

/-- `l` contains no terminated block comment: either no `/*` occurs, or no
`*/` occurs after the first `/*`.  Exactly the texts on which the
block-comment pass is the identity. -/
def noTB : List Char → Bool
  | '/' :: '*' :: r => !hasPair '*' '/' r
  | _ :: r => noTB r
  | [] => true

/-! ## Reference definitions for the amended comment-stripper claim

The amended claim describes `strip_comments` compositionally: truncate
every line at its first `//` (each line's newline is kept), then delete
every block comment from its `/*` through the first following `*/`
(anything between, newlines included; a `/*` with no following `*/` is
kept verbatim).  The following definitions render that description, to be
proved equal to `strip_comments` (which is translated from the source). -/

/-- Truncate one line at its first `//`. -/
def dropLineComment : List Char → List Char
  | '/' :: '/' :: _ => []
  | c :: rest => c :: dropLineComment rest
  | [] => []

/-- Join lines with `\n` (the inverse of splitting on `\n`). -/
def joinNl : List (List Char) → List Char
  | [] => []
  | [l] => l
  | l :: ls => l ++ '\n' :: joinNl ls

/-- Reference block-comment removal, in first-occurrence form: on a `/*`,
if a `*/` follows, delete through the first one and continue after it;
otherwise keep the rest verbatim.  Fuel-structural; each step consumes at
least one character, so fuel exceeding the length suffices. -/
def removeBlocksF : Nat → List Char → List Char
  | 0, l => l
  | _ + 1, [] => []
  | fuel + 1, '/' :: '*' :: rest =>
    if hasPair '*' '/' rest then removeBlocksF fuel (afterClose rest)
    else '/' :: '*' :: rest
  | fuel + 1, c :: rest => c :: removeBlocksF fuel rest

/-- Reference block-comment removal of a whole text. -/
def removeBlocks (l : List Char) : List Char :=
  removeBlocksF (l.length + 1) l

/-- The amended description of `strip_comments`: per-line truncation at
the first `//` with the lines rejoined by their newlines, then repeated
first-occurrence block-comment deletion. -/
def amendedStripComments (t : String) : String :=
  String.mk (removeBlocks (joinNl ((splitC '\n' t.data).map dropLineComment)))

/-! ## Lemmas: unfolding the comment-stripper state machines -/

theorem hasPair_two (p q a b : Char) (r : List Char) :
    hasPair p q (a :: b :: r) = ((a = p && b = q) || hasPair p q (b :: r)) := by
  rfl

theorem hasPair_cons (p q c : Char) (l : List Char) :
    hasPair p q (c :: l) = ((l.head?.elim false (fun d => c = p && d = q)) || hasPair p q l) := by
  cases l with
  | nil => simp [hasPair]
  | cons d t => simp [hasPair_two, hasPair]

theorem hasPair_tail {p q c : Char} {l : List Char}
    (h : hasPair p q (c :: l) = false) : hasPair p q l = false := by
  rw [hasPair_cons] at h
  exact (Bool.or_eq_false_iff.mp h).2

theorem slc_nil (b : Bool) : slc b [] = [] := by
  cases b <;> rfl

theorem slc_false_one (c : Char) : slc false [c] = [c] := by
  rw [slc.eq_def]
  split <;> simp_all [slc_nil]

theorem slc_false_two (c d : Char) (r : List Char) (h : ¬(c = '/' ∧ d = '/')) :
    slc false (c :: d :: r) = c :: slc false (d :: r) := by
  rw [slc.eq_def]
  split <;> simp_all

theorem slc_false_open (r : List Char) : slc false ('/' :: '/' :: r) = slc true r := by
  rfl

theorem sb_none_nil : sb none [] = [] := rfl

theorem sb_some_nil (acc : List Char) : sb (some acc) [] = acc.reverse := rfl

theorem sb_none_open (r : List Char) : sb none ('/' :: '*' :: r) = sb (some ['*', '/']) r := rfl

theorem sb_none_one (c : Char) : sb none [c] = [c] := by
  rw [sb.eq_def]
  split <;> simp_all [sb_none_nil]

theorem sb_none_two (c d : Char) (r : List Char) (h : ¬(c = '/' ∧ d = '*')) :
    sb none (c :: d :: r) = c :: sb none (d :: r) := by
  rw [sb.eq_def]
  split <;> simp_all

theorem sb_some_close (acc : List Char) (r : List Char) :
    sb (some acc) ('*' :: '/' :: r) = sb none r := rfl

theorem sb_some_one (acc : List Char) (c : Char) :
    sb (some acc) [c] = (c :: acc).reverse := by
  rw [sb.eq_def]
  split <;> simp_all [sb_some_nil]

theorem sb_some_two (acc : List Char) (c d : Char) (r : List Char) (h : ¬(c = '*' ∧ d = '/')) :
    sb (some acc) (c :: d :: r) = sb (some (c :: acc)) (d :: r) := by
  rw [sb.eq_def]
  split <;> simp_all

theorem noTB_nil : noTB [] = true := rfl

theorem noTB_open (r : List Char) : noTB ('/' :: '*' :: r) = !hasPair '*' '/' r := rfl

theorem noTB_one (c : Char) : noTB [c] = true := by
  rw [noTB.eq_def]
  split <;> simp_all [noTB_nil]

theorem noTB_two (c d : Char) (r : List Char) (h : ¬(c = '/' ∧ d = '*')) :
    noTB (c :: d :: r) = noTB (d :: r) := by
  rw [noTB.eq_def]
  split <;> simp_all

theorem afterClose_close (r : List Char) : afterClose ('*' :: '/' :: r) = r := rfl

theorem afterClose_two (c d : Char) (r : List Char) (h : ¬(c = '*' ∧ d = '/')) :
    afterClose (c :: d :: r) = afterClose (d :: r) := by
  rw [afterClose.eq_def]
  split <;> simp_all

theorem afterClose_one (c : Char) : afterClose [c] = afterClose [] := by
  rw [afterClose.eq_def]
  split <;> simp_all

/-! ## Lemmas: behaviour of the comment-stripper passes -/

theorem hasPair_cons_ne {p q c : Char} (l : List Char) (h : ¬c = p) :
    hasPair p q (c :: l) = hasPair p q l := by
  rw [hasPair_cons]
  cases l <;> simp_all

theorem slc_false_cons (c : Char) (rest : List Char)
    (h : ¬(c = '/' ∧ rest.head? = some '/')) :
    slc false (c :: rest) = c :: slc false rest := by
  cases rest with
  | nil => exact slc_false_one c
  | cons d t =>
    refine slc_false_two c d t ?_
    simpa using h

theorem slc_true_nl (r : List Char) : slc true ('\n' :: r) = '\n' :: slc false r := rfl

theorem slc_true_skip (c : Char) (r : List Char) (h : ¬c = '\n') :
    slc true (c :: r) = slc true r := by
  rw [slc.eq_def]
  split <;> simp_all

theorem sb_none_cons_ne (d : Char) (r : List Char) (h : ¬d = '/') :
    sb none (d :: r) = d :: sb none r := by
  cases r with
  | nil => exact sb_none_one d
  | cons e t => exact sb_none_two d e t (fun hc => h hc.1)

theorem noTB_cons_ne (c : Char) (l : List Char) (h : ¬c = '/') :
    noTB (c :: l) = noTB l := by
  cases l with
  | nil => rw [noTB_one, noTB_nil]
  | cons d t => exact noTB_two c d t (fun hc => h hc.1)

/-- The first pass is the identity on text with no `//`. -/
theorem slc_false_fix : ∀ l : List Char, hasPair '/' '/' l = false → slc false l = l := by
  intro l
  induction l with
  | nil => intro _; rfl
  | cons c rest ih =>
    intro h
    have htail : hasPair '/' '/' rest = false := hasPair_tail h
    have hc : ¬(c = '/' ∧ rest.head? = some '/') := by
      rintro ⟨hc1, hc2⟩
      cases rest with
      | nil => simp at hc2
      | cons d t =>
        simp at hc2
        rw [hc1, hc2, hasPair_two] at h
        simp at h
    rw [slc_false_cons c rest hc, ih htail]

/-- The second pass is the identity on text with no `/*`. -/
theorem sb_none_fix_noBO : ∀ l : List Char, hasPair '/' '*' l = false → sb none l = l := by
  intro l
  induction l with
  | nil => intro _; rfl
  | cons c rest ih =>
    intro h
    have htail : hasPair '/' '*' rest = false := hasPair_tail h
    cases rest with
    | nil => exact sb_none_one c
    | cons d t =>
      have hc : ¬(c = '/' ∧ d = '*') := by
        intro hc
        rw [hc.1, hc.2, hasPair_two] at h
        simp at h
      rw [sb_none_two c d t hc, ih htail]

/-- Heads possibly produced by the dropping state of the first pass. -/
theorem slc_true_head : ∀ r : List Char, slc true r = [] ∨ ∃ t, slc true r = '\n' :: t := by
  intro r
  induction r with
  | nil => left; rfl
  | cons c rest ih =>
    by_cases hc : c = '\n'
    · subst hc
      right
      exact ⟨slc false rest, slc_true_nl rest⟩
    · rw [slc_true_skip c rest hc]
      exact ih

/-- The output of the first pass never contains `//`. -/
theorem slc_no_lc : ∀ (b : Bool) (l : List Char), hasPair '/' '/' (slc b l) = false := by
  intro b l
  induction b, l using slc.induct with
  | case1 rest ih => rwa [slc_false_open]
  | case2 c rest h ih =>
    have hc : ¬(c = '/' ∧ rest.head? = some '/') := by
      rintro ⟨hc1, hc2⟩
      cases rest with
      | nil => simp at hc2
      | cons d t =>
        simp at hc2
        exact h t hc1 (by rw [hc2])
    rw [slc_false_cons c rest hc]
    by_cases hcp : c = '/'
    · subst hcp
      cases rest with
      | nil => simp [slc_nil, hasPair]
      | cons d t =>
        have hd : ¬d = '/' := by
          intro hd
          exact hc ⟨rfl, by simp [hd]⟩
        by_cases hopen : d = '/' ∧ t.head? = some '/'
        · exact absurd hopen.1 hd
        · rw [slc_false_cons d t (by tauto)] at ih ⊢
          rw [hasPair_cons]
          simp only [List.head?_cons]
          simp [hd, ih]
    · rw [hasPair_cons_ne _ hcp]
      exact ih
  | case3 rest ih =>
    rw [slc_true_nl, hasPair_cons_ne _ (by decide)]
    exact ih
  | case4 c rest h ih =>
    rwa [slc_true_skip c rest (by simpa using h)]
  | case5 b => simp [slc_nil, hasPair]

theorem hasPair_append {p q : Char} : ∀ (t l : List Char),
    hasPair p q (t ++ l) = false → hasPair p q l = false := by
  intro t
  induction t with
  | nil => intro l h; simpa using h
  | cons c t ih =>
    intro l h
    exact ih l (hasPair_tail h)

/-- `afterClose` yields a suffix. -/
theorem afterClose_suffix : ∀ l : List Char, afterClose l <:+ l := by
  intro l
  induction l using afterClose.induct with
  | case1 r => rw [afterClose_close]; exact ⟨['*', '/'], rfl⟩
  | case2 c r h ih =>
    have : afterClose (c :: r) = afterClose r := by
      cases r with
      | nil => exact afterClose_one c
      | cons d t =>
        refine afterClose_two c d t ?_
        rintro ⟨h1, h2⟩
        exact h t h1 (by rw [h2])
    rw [this]
    exact ih.trans (List.suffix_cons c r)
  | case3 => exact List.suffix_refl []

theorem hasPair_suffix {p q : Char} {l₁ l₂ : List Char} (hs : l₁ <:+ l₂)
    (h : hasPair p q l₂ = false) : hasPair p q l₁ = false := by
  obtain ⟨t, rfl⟩ := hs
  exact hasPair_append t l₁ h

/-- When a `*/` exists, `afterClose` strictly shortens. -/
theorem afterClose_length : ∀ l : List Char, hasPair '*' '/' l = true →
    (afterClose l).length < l.length := by
  intro l
  induction l using afterClose.induct with
  | case1 r =>
    intro _
    rw [afterClose_close]
    simp [Nat.lt_succ_of_lt]
  | case2 c r h ih =>
    intro hbc
    cases r with
    | nil => simp [hasPair] at hbc
    | cons d t =>
      have hcd : ¬(c = '*' ∧ d = '/') := by
        rintro ⟨h1, h2⟩
        exact h t h1 (by rw [h2])
      rw [afterClose_two c d t hcd]
      rw [hasPair_two] at hbc
      have : hasPair '*' '/' (d :: t) = true := by
        rcases Bool.or_eq_true_iff.mp hbc with h1 | h1
        · exact absurd (by simpa using h1) hcd
        · exact h1
      exact Nat.lt_trans (ih this) (by simp)
  | case3 =>
    intro hbc
    simp [hasPair] at hbc

/-- Over a terminated block comment, `sb` in skipping state jumps to just
after the first `*/` and resumes copying. -/
theorem sb_some_closed : ∀ (u : List Char), hasPair '*' '/' u = true →
    ∀ acc, sb (some acc) u = sb none (afterClose u) := by
  intro u
  induction u with
  | nil => intro h; simp [hasPair] at h
  | cons c r ih =>
    intro h acc
    cases r with
    | nil => simp [hasPair] at h
    | cons d t =>
      by_cases hcd : c = '*' ∧ d = '/'
      · rw [hcd.1, hcd.2, sb_some_close, afterClose_close]
      · rw [sb_some_two acc c d t hcd, afterClose_two c d t hcd]
        rw [hasPair_two] at h
        have : hasPair '*' '/' (d :: t) = true := by
          rcases Bool.or_eq_true_iff.mp h with h1 | h1
          · exact absurd (by simpa using h1) hcd
          · exact h1
        exact ih this (c :: acc)

/-- With no `*/` ahead, `sb` in skipping state reaches the end of input
and emits everything verbatim. -/
theorem sb_some_open_id : ∀ (u : List Char), hasPair '*' '/' u = false →
    ∀ acc, sb (some acc) u = acc.reverse ++ u := by
  intro u
  induction u with
  | nil => intro _ acc; simp [sb_some_nil]
  | cons c r ih =>
    intro h acc
    cases r with
    | nil =>
      rw [sb_some_one]
      simp
    | cons d t =>
      have hcd : ¬(c = '*' ∧ d = '/') := by
        rintro ⟨h1, h2⟩
        rw [h1, h2, hasPair_two] at h
        simp at h
      rw [sb_some_two acc c d t hcd, ih (hasPair_tail h) (c :: acc)]
      simp

/-- The second pass is the identity exactly on text with no terminated
block comment. -/
theorem sb_none_fix : ∀ v : List Char, noTB v = true → sb none v = v := by
  intro v
  induction v with
  | nil => intro _; rfl
  | cons c r ih =>
    intro h
    cases r with
    | nil => exact sb_none_one c
    | cons d t =>
      by_cases hcd : c = '/' ∧ d = '*'
      · rw [hcd.1, hcd.2] at h ⊢
        rw [noTB_open] at h
        rw [sb_none_open, sb_some_open_id t (by simpa using h) ['*', '/']]
        rfl
      · rw [sb_none_two c d t hcd, ih (by rwa [noTB_two c d t hcd] at h)]

/-- Key invariant: on input with no `//`, the block-comment pass produces
output with no terminated block comment and still no `//`. -/
theorem sb_none_keeps : ∀ (n : Nat) (u : List Char), u.length ≤ n →
    hasPair '/' '/' u = false →
    noTB (sb none u) = true ∧ hasPair '/' '/' (sb none u) = false := by
  intro n
  induction n with
  | zero =>
    intro u hlen _
    have : u = [] := List.length_eq_zero.mp (Nat.le_zero.mp hlen)
    subst this
    exact ⟨noTB_nil, by simp [sb_none_nil, hasPair]⟩
  | succ n ih =>
    intro u hlen hdd
    match u with
    | [] => exact ⟨noTB_nil, by simp [sb_none_nil, hasPair]⟩
    | c :: r =>
      by_cases hopen : c = '/' ∧ r.head? = some '*'
      · obtain ⟨hc, hr⟩ := hopen
        subst hc
        cases r with
        | nil => simp at hr
        | cons r0 t =>
          replace hr : r0 = '*' := by simpa using hr
          subst hr
          have hddt : hasPair '/' '/' t = false := hasPair_tail (hasPair_tail hdd)
          by_cases hbc : hasPair '*' '/' t = true
          · rw [sb_none_open, sb_some_closed t hbc ['*', '/']]
            have hlt : (afterClose t).length < t.length := afterClose_length t hbc
            have hlen' : (afterClose t).length ≤ n := by
              have : t.length + 2 ≤ n + 1 := by simpa using hlen
              omega
            exact ih (afterClose t) hlen' (hasPair_suffix (afterClose_suffix t) hddt)
          · have hbc' : hasPair '*' '/' t = false := by simpa using hbc
            rw [sb_none_open, sb_some_open_id t hbc' ['*', '/']]
            refine ⟨?_, ?_⟩
            · show noTB ('/' :: '*' :: t) = true
              rw [noTB_open, hbc']
              rfl
            · exact hdd
      · -- copying step
        have hc2 : ¬(c = '/' ∧ r.head? = some '*') := hopen
        have hstep : sb none (c :: r) = c :: sb none r := by
          cases r with
          | nil => exact sb_none_one c
          | cons d t =>
            refine sb_none_two c d t ?_
            rintro ⟨h1, h2⟩
            exact hc2 ⟨h1, by simp [h2]⟩
        have hddr : hasPair '/' '/' r = false := hasPair_tail hdd
        have hlenr : r.length ≤ n := by
          have : r.length + 1 ≤ n + 1 := by simpa using hlen
          omega
        obtain ⟨ih1, ih2⟩ := ih r hlenr hddr
        rw [hstep]
        by_cases hcp : c = '/'
        · subst hcp
          cases r with
          | nil =>
            refine ⟨by rw [sb_none_nil]; exact noTB_one '/', ?_⟩
            rw [sb_none_nil]
            simp [hasPair]
          | cons d t =>
            have hd1 : ¬d = '*' := by
              intro hd
              exact hc2 ⟨rfl, by simp [hd]⟩
            have hd2 : ¬d = '/' := by
              intro hd
              rw [hd, hasPair_two] at hdd
              simp at hdd
            have hXd : sb none (d :: t) = d :: sb none t := sb_none_cons_ne d t hd2
            rw [hXd] at ih1 ih2 ⊢
            refine ⟨?_, ?_⟩
            · rw [noTB_two '/' d _ (fun hc => hd1 hc.2)]
              exact ih1
            · rw [hasPair_two]
              simp only [hd2]
              simpa using ih2
        · refine ⟨?_, ?_⟩
          · rw [noTB_cons_ne c _ hcp]
            exact ih1
          · rw [hasPair_cons_ne _ hcp]
            exact ih2

/-- Idempotence of the whole comment stripper at the character level. -/
theorem stripAll_idem (l : List Char) : stripAll (stripAll l) = stripAll l := by
  unfold stripAll
  have h1 : hasPair '/' '/' (slc false l) = false := slc_no_lc false l
  obtain ⟨h2, h3⟩ :=
    sb_none_keeps (slc false l).length (slc false l) (Nat.le_refl _) h1
  rw [slc_false_fix _ h3, sb_none_fix _ h2]

/-! ## Lemmas: the comment stripper equals its amended description -/

theorem dropLineComment_open (r : List Char) : dropLineComment ('/' :: '/' :: r) = [] := rfl

theorem dropLineComment_cons (c : Char) (rest : List Char)
    (h : ¬(c = '/' ∧ rest.head? = some '/')) :
    dropLineComment (c :: rest) = c :: dropLineComment rest := by
  cases rest with
  | nil =>
    rw [dropLineComment.eq_def]
    split <;> simp_all
  | cons d t =>
    have hd : ¬(c = '/' ∧ d = '/') := by
      rintro ⟨h1, h2⟩
      exact h ⟨h1, by simp [h2]⟩
    rw [dropLineComment.eq_def]
    split <;> simp_all

theorem splitC_exists (sep : Char) : ∀ l : List Char, ∃ h t, splitC sep l = h :: t := by
  intro l
  induction l with
  | nil => exact ⟨[], [], rfl⟩
  | cons c rest ih =>
    obtain ⟨h, t, hs⟩ := ih
    by_cases hc : c = sep
    · exact ⟨[], splitC sep rest, by simp [splitC, hc]⟩
    · exact ⟨c :: h, t, by simp [splitC, hc, hs]⟩

theorem splitC_cons_sep (sep : Char) (rest : List Char) :
    splitC sep (sep :: rest) = [] :: splitC sep rest := by
  simp [splitC]

theorem splitC_cons_ne (sep c : Char) (rest : List Char) (h : ¬c = sep)
    (l₀ : List Char) (ls : List (List Char)) (hs : splitC sep rest = l₀ :: ls) :
    splitC sep (c :: rest) = (c :: l₀) :: ls := by
  simp [splitC, h, hs]

theorem splitC_head (sep : Char) (rest l₀ : List Char) (ls : List (List Char))
    (hs : splitC sep rest = l₀ :: ls) : l₀ = [] ∨ l₀.head? = rest.head? := by
  cases rest with
  | nil =>
    left
    have : ([[]] : List (List Char)) = l₀ :: ls := hs
    exact (List.cons.inj this.symm).1
  | cons d r =>
    by_cases hd : d = sep
    · left
      rw [hd, splitC_cons_sep] at hs
      exact (List.cons.inj hs).1.symm
    · obtain ⟨m₀, ms, hm⟩ := splitC_exists sep r
      rw [splitC_cons_ne sep d r hd m₀ ms hm] at hs
      right
      rw [← (List.cons.inj hs).1]
      simp

theorem joinNl_single (l : List Char) : joinNl [l] = l := rfl

theorem joinNl_cons_cons (l₁ l₂ : List Char) (ls : List (List Char)) :
    joinNl (l₁ :: l₂ :: ls) = l₁ ++ '\n' :: joinNl (l₂ :: ls) := rfl

theorem joinNl_cons_head (c : Char) (x : List Char) (xs : List (List Char)) :
    joinNl ((c :: x) :: xs) = c :: joinNl (x :: xs) := by
  cases xs with
  | nil => rfl
  | cons y ys => rfl

/-- The line-comment pass equals per-line truncation at the first `//`
with the lines rejoined by their newlines (the `true` state corresponds
to the first line being dropped). -/
theorem slc_lines : ∀ (b : Bool) (l : List Char),
    slc b l =
      joinNl ((if b then [] :: (splitC '\n' l).tail else splitC '\n' l).map
        dropLineComment) := by
  intro b l
  induction b, l using slc.induct with
  | case1 rest ih =>
    obtain ⟨l₀, ls, hs⟩ := splitC_exists '\n' rest
    rw [slc_false_open, ih]
    have h1 : splitC '\n' ('/' :: rest) = ('/' :: l₀) :: ls :=
      splitC_cons_ne '\n' '/' rest (by decide) l₀ ls hs
    have h2 : splitC '\n' ('/' :: '/' :: rest) = ('/' :: '/' :: l₀) :: ls :=
      splitC_cons_ne '\n' '/' ('/' :: rest) (by decide) ('/' :: l₀) ls h1
    simp only [if_true, if_false, Bool.false_eq_true, h2, hs, List.tail_cons,
      List.map_cons, dropLineComment_open, dropLineComment]
  | case2 c rest h ih =>
    have hside : ¬(c = '/' ∧ rest.head? = some '/') := by
      rintro ⟨hc1, hc2⟩
      cases rest with
      | nil => simp at hc2
      | cons d t =>
        simp at hc2
        exact h t hc1 (by rw [hc2])
    rw [slc_false_cons c rest hside, ih]
    obtain ⟨l₀, ls, hs⟩ := splitC_exists '\n' rest
    by_cases hc : c = '\n'
    · subst hc
      rw [splitC_cons_sep '\n' rest]
      simp only [if_false, Bool.false_eq_true, List.map_cons, dropLineComment, hs]
      rw [joinNl_cons_cons]
      simp
    · rw [splitC_cons_ne '\n' c rest hc l₀ ls hs]
      have hl₀ : ¬(c = '/' ∧ l₀.head? = some '/') := by
        rintro ⟨hc1, hc2⟩
        rcases splitC_head '\n' rest l₀ ls hs with he | he
        · rw [he] at hc2
          simp at hc2
        · exact hside ⟨hc1, by rw [← he, hc2]⟩
      simp only [if_false, Bool.false_eq_true, List.map_cons, hs]
      rw [dropLineComment_cons c l₀ hl₀, joinNl_cons_head]
  | case3 rest ih =>
    obtain ⟨l₀, ls, hs⟩ := splitC_exists '\n' rest
    rw [slc_true_nl, ih]
    rw [splitC_cons_sep '\n' rest]
    simp only [if_true, if_false, Bool.false_eq_true, List.tail_cons, List.map_cons,
      dropLineComment, hs]
    rw [joinNl_cons_cons]
    simp
  | case4 c rest h ih =>
    have hc : ¬c = '\n' := by simpa using h
    rw [slc_true_skip c rest hc, ih]
    obtain ⟨l₀, ls, hs⟩ := splitC_exists '\n' rest
    rw [splitC_cons_ne '\n' c rest hc l₀ ls hs, hs]
    simp
  | case5 b =>
    cases b <;> simp [slc_nil, splitC, joinNl, dropLineComment]

theorem sb_none_cons (c : Char) (rest : List Char)
    (h : ¬(c = '/' ∧ rest.head? = some '*')) :
    sb none (c :: rest) = c :: sb none rest := by
  cases rest with
  | nil => exact sb_none_one c
  | cons d t =>
    refine sb_none_two c d t ?_
    rintro ⟨h1, h2⟩
    exact h ⟨h1, by simp [h2]⟩

theorem removeBlocksF_open (n : Nat) (rest : List Char) :
    removeBlocksF (n + 1) ('/' :: '*' :: rest) =
      if hasPair '*' '/' rest then removeBlocksF n (afterClose rest)
      else '/' :: '*' :: rest := rfl

theorem removeBlocksF_cons (n : Nat) (c : Char) (rest : List Char)
    (h : ¬(c = '/' ∧ rest.head? = some '*')) :
    removeBlocksF (n + 1) (c :: rest) = c :: removeBlocksF n rest := by
  cases rest with
  | nil =>
    rw [removeBlocksF.eq_def]
    split <;> simp_all [removeBlocksF]
  | cons d t =>
    have hd : ¬(c = '/' ∧ d = '*') := by
      rintro ⟨h1, h2⟩
      exact h ⟨h1, by simp [h2]⟩
    rw [removeBlocksF.eq_def]
    split <;> simp_all

/-- With enough fuel, the first-occurrence form of block-comment removal
computes the block-comment pass. -/
theorem removeBlocksF_sb : ∀ (n : Nat) (l : List Char), l.length < n →
    removeBlocksF n l = sb none l := by
  intro n
  induction n with
  | zero =>
    intro l hl
    exact absurd hl (Nat.not_lt_zero _)
  | succ n ih =>
    intro l hl
    match l with
    | [] => rfl
    | c :: rest =>
      by_cases hopen : c = '/' ∧ rest.head? = some '*'
      · obtain ⟨hc, hr⟩ := hopen
        subst hc
        cases rest with
        | nil => simp at hr
        | cons r0 t =>
          replace hr : r0 = '*' := by simpa using hr
          subst hr
          rw [removeBlocksF_open]
          by_cases hbc : hasPair '*' '/' t = true
          · rw [if_pos hbc, sb_none_open, sb_some_closed t hbc ['*', '/']]
            have hlt : (afterClose t).length < n := by
              have h1 : (afterClose t).length < t.length := afterClose_length t hbc
              simp only [List.length_cons] at hl
              omega
            exact ih (afterClose t) hlt
          · have hbc' : hasPair '*' '/' t = false := by simpa using hbc
            rw [if_neg (by simp [hbc']), sb_none_open, sb_some_open_id t hbc' ['*', '/']]
            rfl
      · rw [removeBlocksF_cons n c rest hopen, sb_none_cons c rest hopen]
        have hlr : rest.length < n := by
          simp only [List.length_cons] at hl
          omega
        rw [ih rest hlr]

/-! ## Auxiliary lemmas for the claim theorems -/

theorem map_filter_eq_filterMap {α β : Type} (g : α → List Char) (f : List Char → β) :
    ∀ L : List α,
      ((L.map g).filter (fun x => x ≠ [])).map f =
        L.filterMap (fun a => if g a = [] then none else some (f (g a))) := by
  intro L
  induction L with
  | nil => rfl
  | cons a L ih =>
    by_cases h : g a = [] <;> simp [h] at ih ⊢ <;> simp [ih]

/-! ## Claim theorems -/

/-- Claim C1: on every input text in which the module extractor locates
zero module boundaries, the boundary operation `parseModules` fails with
`ParseError` (`NoModulesFound`) instead of returning a module sequence,
and the run produces no document. -/
theorem parseModules_fails_on_no_boundaries (t : String)
    (h : scanModulesL (stripAll t.data) = []) :
    parseModulesOp t = Except.error ParseError.noModulesFound ∧
      run_docgen t = Except.error ParseError.noModulesFound := by
  have hp : parse_modules t = [] := by
    unfold parse_modules
    rw [h]
    rfl
  constructor
  · unfold parseModulesOp
    rw [hp]
    rfl
  · unfold run_docgen parseModulesOp
    rw [hp]
    rfl

/-- Claim C1 witness: a concrete text with zero module boundaries. -/
theorem parseModules_fails_on_no_boundaries_witness :
    scanModulesL (stripAll ("hello world").data) = [] ∧
      parseModulesOp ("hello world") = Except.error ParseError.noModulesFound ∧
      run_docgen ("hello world") = Except.error ParseError.noModulesFound :=
  ⟨by decide, parseModules_fails_on_no_boundaries ("hello world") (by decide)⟩

/-- Claim C2 counterexample: parameter parsing does not split only at the
top syntactic level, does not strip only the leading keyword (it removes
every occurrence of the substring `parameter`), and keeps a fragment that
becomes empty after keyword removal; the spec-worded parse differs from
the code on this input. -/
theorem parse_parameters_counterexample :
    parse_parameters (some ("parameter W=f(1,2), parameter, parameter aparameterb=3")) =
        ["W=f(1", "2)", "", "ab=3"] ∧
      specParseParameters ("parameter W=f(1,2), parameter, parameter aparameterb=3") =
        ["W=f(1,2)", "aparameterb=3"] ∧
      parse_parameters (some ("parameter W=f(1,2), parameter, parameter aparameterb=3")) ≠
        specParseParameters ("parameter W=f(1,2), parameter, parameter aparameterb=3") := by
  refine ⟨by decide, by decide, ?_⟩
  decide

/-- Claim C2 (amended): parameter parsing splits on every comma (nesting
ignored), trims whitespace, discards fragments blank before keyword
removal, and removes every occurrence of the substring `parameter`
(keeping a fragment that only then becomes empty); the claim's example
`#(parameter WIDTH=8, parameter DEPTH=4)` still yields exactly
`["WIDTH=8", "DEPTH=4"]` in that order. -/
theorem parse_parameters_amended :
    (∀ raw : String, parse_parameters (some raw) = amendedParseParameters raw) ∧
      parse_parameters (some ("parameter WIDTH=8, parameter DEPTH=4")) =
        ["WIDTH=8", "DEPTH=4"] ∧
      (parse_modules ("module m #(parameter WIDTH=8, parameter DEPTH=4)(a);endmodule")).map
          VerilogDocgen.Module.parameters = [["WIDTH=8", "DEPTH=4"]] := by
  refine ⟨?_, by decide, by decide⟩
  intro raw
  obtain ⟨l⟩ := raw
  by_cases hl : l = []
  · subst hl
    rfl
  · show parse_parameters (some (String.mk l)) = amendedParseParameters (String.mk l)
    unfold parse_parameters amendedParseParameters
    simp only [hl, if_false]
    exact map_filter_eq_filterMap pyStrip (fun t => String.mk (pyStrip (removeParameter t)))
      (splitC ',' l)

/-- Claim C3 counterexample: comment stripping does not preserve all
newlines of the input — a newline inside a block comment is removed along
with the comment. -/
theorem strip_comments_counterexample :
    strip_comments ("a/*x\ny*/b") = "ab" ∧
      ("a/*x\ny*/b").data.count '\n' = 1 ∧
      (strip_comments ("a/*x\ny*/b")).data.count '\n' = 0 := by
  refine ⟨by decide, by decide, by decide⟩

/-- Claim C3 (amended): comment stripping removes each `//` comment up to
the end of its line (keeping the line's newline) and each block comment
from `/*` through the first following `*/` including any newlines inside
it (an unterminated `/*` is kept verbatim), preserving all other text —
proved in full generality as `strip_comments = amendedStripComments`, the
composition of per-line `//` truncation (lines rejoined by their
newlines) with repeated first-occurrence block-comment deletion; in
particular comment-free text is returned unchanged. -/
theorem strip_comments_amended :
    (∀ t : String, strip_comments t = amendedStripComments t) ∧
      (∀ t : String, hasPair '/' '/' t.data = false → hasPair '/' '*' t.data = false →
        strip_comments t = t) ∧
      strip_comments ("a//x\nb/*y\nz*/c") = "a\nbc" := by
  refine ⟨?_, ?_, by decide⟩
  · intro t
    obtain ⟨l⟩ := t
    refine congrArg String.mk ?_
    show stripAll l = removeBlocks (joinNl ((splitC '\n' l).map dropLineComment))
    unfold stripAll removeBlocks
    have h1 : slc false l = joinNl ((splitC '\n' l).map dropLineComment) := by
      have h := slc_lines false l
      simpa using h
    rw [h1]
    exact (removeBlocksF_sb _ _ (Nat.lt_succ_self _)).symm
  · intro t h1 h2
    obtain ⟨l⟩ := t
    show String.mk (stripAll l) = String.mk l
    unfold stripAll
    rw [slc_false_fix l h1, sb_none_fix_noBO l h2]

/-- Claim C3 witness: a comment-free text is returned unchanged. -/
theorem strip_comments_amended_witness :
    hasPair '/' '/' ("module m(a);").data = false ∧
      hasPair '/' '*' ("module m(a);").data = false ∧
      strip_comments ("module m(a);") = "module m(a);" :=
  ⟨by decide, by decide,
    strip_comments_amended.2.1 ("module m(a);") (by decide) (by decide)⟩

/-- Claim C4: comment stripping is idempotent — stripping already-stripped
text returns it unchanged. -/
theorem strip_comments_idempotent (t : String) :
    strip_comments (strip_comments t) = strip_comments t := by
  show String.mk (stripAll (stripAll t.data)) = String.mk (stripAll t.data)
  exact congrArg String.mk (stripAll_idem t.data)

/-- Claim C5: the body `input wire [7:0] a, b;` yields exactly two ports
with the shared direction/type/width, and in general every port built from
one declaration match shares that declaration's direction, type and
width. -/
theorem port_declaration_sharing :
    parse_port_declarations ("input wire [7:0] a, b;") =
        [{ name := "a", direction := some "input", data_type := some "wire",
           width := some "[7:0]" },
         { name := "b", direction := some "input", data_type := some "wire",
           width := some "[7:0]" }] ∧
      ∀ (d : DeclMatch) (p : Port), p ∈ portsOfDecl d →
        p.direction = some (String.mk d.dir) ∧
          p.data_type = Option.map String.mk d.ty ∧
          p.width = Option.map String.mk d.width := by
  refine ⟨by decide, ?_⟩
  intro d p hp
  unfold portsOfDecl at hp
  obtain ⟨name, _, heq⟩ := List.mem_filterMap.mp hp
  by_cases hc : pyStrip name = []
  · simp [hc] at heq
  · simp only [hc, if_false, Option.some.injEq] at heq
    subst heq
    exact ⟨rfl, rfl, rfl⟩

/-- Claim C5 witness: the sharing property at the concrete declaration
match of `input wire [7:0] a, b;`. -/
theorem port_declaration_sharing_witness :
    ({ name := "a", direction := some "input", data_type := some "wire",
       width := some "[7:0]" } : Port) ∈
        portsOfDecl
          (DeclMatch.mk ("input").data (some ("wire").data) (some ("[7:0]").data)
            ("a, b").data) ∧
      ({ name := "a", direction := some "input", data_type := some "wire",
         width := some "[7:0]" } : Port).direction =
          some (String.mk ("input").data) ∧
        ({ name := "a", direction := some "input", data_type := some "wire",
           width := some "[7:0]" } : Port).data_type =
            Option.map String.mk (some ("wire").data) ∧
          ({ name := "a", direction := some "input", data_type := some "wire",
             width := some "[7:0]" } : Port).width =
              Option.map String.mk (some ("[7:0]").data) :=
  ⟨by decide,
    port_declaration_sharing.2
      (DeclMatch.mk ("input").data (some ("wire").data) (some ("[7:0]").data) ("a, b").data)
      { name := "a", direction := some "input", data_type := some "wire",
        width := some "[7:0]" }
      (by decide)⟩

/-- Claim C6: the assembler uses body-level port declarations when they
exist and otherwise falls back to the header-inferred port names with
direction/type/width absent; a module with header ports
`(clk, rst, out)` and no body port declarations parses to exactly those
three name-only ports in order. -/
theorem module_port_fallback :
    (∀ m : RawMatch, parse_port_declarations (String.mk m.body) = [] →
        (assembleModule m).ports =
          (parse_ports_from_header (String.mk m.portsRaw)).map (fun p => { name := p })) ∧
      (∀ m : RawMatch, parse_port_declarations (String.mk m.body) ≠ [] →
        (assembleModule m).ports = parse_port_declarations (String.mk m.body)) ∧
      parse_modules ("module top(clk, rst, out);\nendmodule") =
        [{ name := "top", parameters := [],
           ports := [{ name := "clk" }, { name := "rst" }, { name := "out" }],
           instances := [] }] := by
  refine ⟨?_, ?_, by decide⟩
  · intro m h
    unfold assembleModule
    simp [h]
  · intro m h
    unfold assembleModule
    simp [h]

/-- Claim C6 witness: both assembly branches at concrete module
boundaries. -/
theorem module_port_fallback_witness :
    (assembleModule ⟨("top").data, none, ("clk, rst, out").data, ("\n").data⟩).ports =
        (parse_ports_from_header
            (String.mk ("clk, rst, out").data)).map (fun p => { name := p }) ∧
      (assembleModule ⟨("m").data, none, ("a").data, (" input wire x; ").data⟩).ports =
        parse_port_declarations (String.mk (" input wire x; ").data) :=
  ⟨module_port_fallback.1 _ (by decide), module_port_fallback.2.1 _ (by decide)⟩

/-- Claim C7: `adder u1(.a(x), .b(y), .sum(z));` parses to exactly one
instance with its connections in textual order, and no instance produced
by `parse_instances` ever carries a denylisted keyword as its module
type. -/
theorem instance_parsing :
    parse_instances ("adder u1(.a(x), .b(y), .sum(z));") =
        [{ module_name := "adder", instance_name := "u1",
           connections := [("a", "x"), ("b", "y"), ("sum", "z")] }] ∧
      ∀ (body : String) (inst : Instance), inst ∈ parse_instances body →
        KEYWORDS.contains inst.module_name = false := by
  refine ⟨by decide, ?_⟩
  intro body inst hmem
  unfold parse_instances at hmem
  obtain ⟨m, _, heq⟩ := List.mem_filterMap.mp hmem
  by_cases hk : KEYWORDS.contains (String.mk m.moduleName) = true
  · rw [if_pos hk] at heq
    exact absurd heq (by simp)
  · rw [if_neg hk] at heq
    obtain rfl := Option.some.inj heq
    simpa using hk

/-- Claim C7 witness: the concrete `adder` instance is produced and its
module type is not denylisted. -/
theorem instance_parsing_witness :
    ({ module_name := "adder", instance_name := "u1",
       connections := [("a", "x"), ("b", "y"), ("sum", "z")] } : Instance) ∈
        parse_instances ("adder u1(.a(x), .b(y), .sum(z));") ∧
      KEYWORDS.contains
          ({ module_name := "adder", instance_name := "u1",
             connections := [("a", "x"), ("b", "y"), ("sum", "z")] } : Instance).module_name =
        false :=
  ⟨by decide, instance_parsing.2 ("adder u1(.a(x), .b(y), .sum(z));") _ (by decide)⟩

/-- Claim C8: for every recognized module block, the assembled module's
port list is non-empty whenever the header yields at least one port name
or the body yields at least one declared port. -/
theorem module_ports_nonempty (t : String) (m : RawMatch)
    (_hm : m ∈ scanModulesL (stripAll t.data))
    (h : parse_ports_from_header (String.mk m.portsRaw) ≠ [] ∨
        parse_port_declarations (String.mk m.body) ≠ []) :
    (assembleModule m).ports ≠ [] := by
  unfold assembleModule
  by_cases hd : parse_port_declarations (String.mk m.body) = []
  · simp only [hd, if_true]
    rcases h with h | h
    · simpa using h
    · exact absurd hd h
  · simp only [hd, if_false]
    exact hd

/-- Claim C8 witness: a concrete module block with one header port name
has a non-empty port list. -/
theorem module_ports_nonempty_witness :
    RawMatch.mk ("top").data none ("clk").data ("\n").data ∈
        scanModulesL (stripAll ("module top(clk);\nendmodule").data) ∧
      parse_ports_from_header
          (String.mk (RawMatch.mk ("top").data none ("clk").data ("\n").data).portsRaw) ≠
        [] ∧
      (assembleModule (RawMatch.mk ("top").data none ("clk").data ("\n").data)).ports ≠ [] :=
  ⟨by decide, by decide,
    module_ports_nonempty ("module top(clk);\nendmodule") _ (by decide) (Or.inl (by decide))⟩

/-- Claim C9: rendering is deterministic — the renderer is a pure function
of the module model, so two renderings of the same model are
byte-identical. -/
theorem render_deterministic (modules : List Module) :
    build_documentation modules = build_documentation modules := rfl

/-- Claim C10: `parse_modules` is total (it is a Lean function into
`List Module`), returns the empty list exactly when the module extractor
finds zero boundaries, and returns `[]` without failing on the empty
string, on an unterminated comment, and on malformed module syntax. -/
theorem parse_modules_total :
    (∀ t : String, parse_modules t = [] ↔ scanModulesL (stripAll t.data) = []) ∧
      parse_modules "" = [] ∧
      parse_modules ("/* unterminated") = [] ∧
      parse_modules ("module m( ;") = [] := by
  refine ⟨?_, by decide, by decide, by decide⟩
  intro t
  unfold parse_modules
  exact List.map_eq_nil_iff

end VerilogDocgen
